import Mathlib

/-!
# Countdown: the backtracking solver, the undo stack and the game primitives

A shallow embedding of `Game` (src/Game.h, src/game.cpp) and of the calculation turn of
the game loop (src/main.cpp).

Modelling conventions.

* `int` values are integers (`Int`).  The solver adds, subtracts and multiplies in 32-bit
  `int` (the lambda `performOperations` takes `int a, int b`): a result past the `int`
  range is reduced modulo 2^32 to that range (`wrapInt`), which is what the compiled
  program does with the overflow that C++ leaves undefined.  The game primitive
  `Game::performOperation` is described within the `int` range only.
* The array `numbers[NUMBERS_COUNT]` is a vector of `NUMBERS_COUNT` integers, read with
  `get` and written with `set`.
* The `std::unique_ptr` linked list of `UndoNode`s is a `List GameState` whose head is the
  top of the stack (`nullptr` is `[]`).
* The only `double` values the solver computes are `int`s converted to `double` and the
  quotient of two such values.  They are represented exactly, as a numerator and a
  denominator (`Dbl`).  For 32-bit operands the IEEE quotient compares with `-1` and
  truncates to `int` exactly like the exact quotient, which is all the solver does with it.
  The one quotient of two `int`s past the `int` range, `-2^31 / -1`, converts to `-2^31`
  on x86-64, the value `wrapInt` gives.
* `findSolution` is a recursive closure over the mutable locals `tempNumbers` and `steps`;
  it is embedded by explicit state passing (`SolveState`) with a fuel argument that bounds
  the nesting of recursive calls.
* The `int` division by zero of `Game::performOperation` is undefined behaviour: the
  embedding returns `none` there, and a turn that reaches it is `none`.
* What is printed on `cout` is not part of the state and is left out.
-/

namespace Countdown

/-! ## Data model (src/Game.h) -/

/-- Quantity of numbers that are part of the game. -/
abbrev NUMBERS_COUNT : Nat := 6

/-- Array of numbers (0 if a spot is empty). -/
abbrev Slots := Mathlib.Vector Int NUMBERS_COUNT

/-- Snapshot of the game state (`Game::GameState`). -/
structure GameState where
  numbers : Slots
  target : Int

/-- One game: the six slots, the target and the undo stack (top first). -/
structure Game where
  numbers : Slots
  target : Int
  undoStack : List GameState

/-- The slot indices `0, 1, ..., NUMBERS_COUNT - 1` in the order every `for` loop visits them. -/
def indices : List (Fin NUMBERS_COUNT) := List.finRange NUMBERS_COUNT

/-! ## Undo stack (src/game.cpp, lines 218-257) -/

/-- Capture the current game state: `Game::getCurrentState`. -/
def getCurrentState (g : Game) : GameState :=
  { numbers := Mathlib.Vector.ofFn fun i => g.numbers.get i, target := g.target }

/-- Restore the game to a specific state: `Game::restoreState`. -/
def restoreState (g : Game) (state : GameState) : Game :=
  { g with numbers := Mathlib.Vector.ofFn fun i => state.numbers.get i, target := state.target }

/-- Save the current state on top of the undo stack: `Game::pushUndoState`. -/
def pushUndoState (g : Game) : Game :=
  let currentState := getCurrentState g
  { g with undoStack := currentState :: g.undoStack }

/-- Restore the last saved state, if any: `Game::popUndoState`.
The first component is the returned `bool`. -/
def popUndoState (g : Game) : Bool × Game :=
  match g.undoStack with
  | [] => (false, g)
  | top :: next => (true, { restoreState g top with undoStack := next })

/-- Release all nodes of the undo stack: `Game::clearUndoStack`. -/
def clearUndoStack (g : Game) : Game :=
  { g with undoStack := [] }

/-! ## Solver (src/game.cpp, lines 152-216) -/

/-- The value a 32-bit `int` takes for the integer `n`: `n` reduced modulo 2^32 to the
range from -2^31 to 2^31 - 1 (two's complement). -/
def wrapInt (n : Int) : Int := (n + 2147483648) % 4294967296 - 2147483648

/-- The integer lies in the range of a 32-bit `int`. -/
def InIntRange (n : Int) : Prop := -2147483648 ≤ n ∧ n ≤ 2147483647

instance (n : Int) : Decidable (InIntRange n) :=
  inferInstanceAs (Decidable (-2147483648 ≤ n ∧ n ≤ 2147483647))

/-- The value of a `double` of the solver: the exact quotient `num / den`
(`den = 1` for a converted `int`). -/
structure Dbl where
  num : Int
  den : Int

/-- Conversion of an `int` to `double`. -/
def Dbl.ofInt (n : Int) : Dbl := { num := n, den := 1 }

/-- The rational number a `Dbl` stands for. -/
def Dbl.toRat (d : Dbl) : ℚ := (d.num : ℚ) / (d.den : ℚ)

/-- The comparison `result == -1`. -/
def Dbl.isNegOne (d : Dbl) : Bool := d.den != 0 && d.num == -d.den

/-- The test `std::isnan(result)`: only `0 / 0` is not a number. -/
def Dbl.isNaN (d : Dbl) : Bool := d.den == 0 && d.num == 0

/-- The conversion `static_cast<int>(result)`, also applied by the assignment
`tempNumbers[i] = result`: truncation toward zero, held in an `int`. -/
def Dbl.toInt (d : Dbl) : Int := wrapInt (d.num.tdiv d.den)

/-- The lambda `performOperations` of `Game::solve`: `a + b`, `a - b` and `a * b` are
computed in `int` and then converted to `double`; the quotient is computed in `double`. -/
def performOperations (a b : Int) (op : Char) : Dbl :=
  if op = '+' then Dbl.ofInt (wrapInt (a + b))
  else if op = '-' then Dbl.ofInt (wrapInt (a - b))
  else if op = '*' then Dbl.ofInt (wrapInt (a * b))
  else if op = '/' ∧ b ≠ 0 then { num := a, den := b }
  else Dbl.ofInt (-1)

/-- Operation priority of the solver. -/
def operationPriority : List Char := ['+', '-', '*', '/']

/-- The text pushed on `steps` for one operation. -/
def stepText (a : Int) (op : Char) (b : Int) (r : Int) : String :=
  toString a ++ " " ++ op.toString ++ " " ++ toString b ++ " = " ++ toString r

/-- The mutable locals captured by `findSolution`. -/
structure SolveState where
  tempNumbers : Slots
  steps : List String

/-- First loop of `findSolution`: is some slot equal to the target? -/
def targetReached (tempNumbers : Slots) (target : Int) : Bool :=
  indices.any fun i => tempNumbers.get i == target

/-- The loop `for (char op : operationPriority)` for the pair `(i, j)` holding `a` and `b`.
`none` means that the recursive call ran out of fuel. -/
def opLoop (findSolution : SolveState → Option (Bool × SolveState))
    (i j : Fin NUMBERS_COUNT) (a b : Int) :
    List Char → SolveState → Option (Bool × SolveState)
  | [], s => some (false, s)
  | op :: ops, s =>
    let result := performOperations a b op
    if result.isNegOne || result.isNaN then
      opLoop findSolution i j a b ops s
    else
      match findSolution
          { tempNumbers := (s.tempNumbers.set i result.toInt).set j 0
            steps := s.steps ++ [stepText a op b result.toInt] } with
      | none => none
      | some (true, s') => some (true, s')
      | some (false, s') =>
        opLoop findSolution i j a b ops
          { tempNumbers := (s'.tempNumbers.set i a).set j b
            steps := s'.steps.dropLast }

/-- The loop `for (int j = 0; j < NUMBERS_COUNT; ++j)` for a fixed `i`. -/
def pairLoop (findSolution : SolveState → Option (Bool × SolveState))
    (i : Fin NUMBERS_COUNT) :
    List (Fin NUMBERS_COUNT) → SolveState → Option (Bool × SolveState)
  | [], s => some (false, s)
  | j :: js, s =>
    if i = j ∨ s.tempNumbers.get i = 0 ∨ s.tempNumbers.get j = 0 then
      pairLoop findSolution i js s
    else
      match opLoop findSolution i j (s.tempNumbers.get i) (s.tempNumbers.get j)
          operationPriority s with
      | none => none
      | some (true, s') => some (true, s')
      | some (false, s') => pairLoop findSolution i js s'

/-- The loop `for (int i = 0; i < NUMBERS_COUNT; ++i)` over the left operand. -/
def outerLoop (findSolution : SolveState → Option (Bool × SolveState)) :
    List (Fin NUMBERS_COUNT) → SolveState → Option (Bool × SolveState)
  | [], s => some (false, s)
  | i :: is, s =>
    match pairLoop findSolution i indices s with
    | none => none
    | some (true, s') => some (true, s')
    | some (false, s') => outerLoop findSolution is s'

/-- The recursive closure `findSolution`.  The first argument bounds the nesting of
recursive calls: with fuel `n + 1` the call may nest `n` further levels. -/
def findSolution (target : Int) : Nat → SolveState → Option (Bool × SolveState)
  | 0, _ => none
  | fuel + 1, s =>
    if targetReached s.tempNumbers target then some (true, s)
    else outerLoop (findSolution target fuel) indices s

/-- The method `Game::solve`: the returned `bool`, the step list and the game afterwards.
The search runs with `NUMBERS_COUNT` levels of recursion (depths 0 to 5). -/
def solve (g : Game) (steps : List String) : Option (Bool × List String × Game) :=
  match findSolution g.target NUMBERS_COUNT
      { tempNumbers := Mathlib.Vector.ofFn fun i => g.numbers.get i, steps := steps } with
  | none => none
  | some (found, s) => some (found, s.steps, g)

/-! ## Vocabulary of the claims -/

/-- One recorded operation `a op b = r`: the four fields of a step text. -/
structure Step where
  a : Int
  op : Char
  b : Int
  r : Int
  deriving DecidableEq

/-- The text `"<a> <op> <b> = <r>"` of a recorded operation. -/
def Step.text (st : Step) : String := stepText st.a st.op st.b st.r

/-- The operator applied to two integers, division truncated toward zero. -/
def applyOp (op : Char) (a b : Int) : Int :=
  if op = '+' then a + b
  else if op = '-' then a - b
  else if op = '*' then a * b
  else a.tdiv b

/-- A recorded operation is well formed: the operator is one of `+ - * /` and the
recorded result is the operator applied to the recorded operands. -/
def Step.Valid (st : Step) : Prop :=
  st.op ∈ operationPriority ∧ st.r = applyOp st.op st.a st.b

/-- A recorded operation is what the solver computes: the operator is one of `+ - * /` and
the recorded result is the operator applied to the recorded operands in `int`. -/
def Step.ValidInt (st : Step) : Prop :=
  st.op ∈ operationPriority ∧ st.r = wrapInt (applyOp st.op st.a st.b)

/-- Replaying recorded operations from the slots `t`: every operation takes its operands
from two distinct non-empty slots, writes its result into the left operand's slot and
empties the right operand's slot; at the end some slot equals the target. -/
def Replay (target : Int) : Slots → List Step → Prop
  | t, [] => ∃ i, t.get i = target
  | t, st :: rest =>
    ∃ i j, i ≠ j ∧ t.get i ≠ 0 ∧ t.get j ≠ 0 ∧ st.a = t.get i ∧ st.b = t.get j ∧
      Replay target ((t.set i st.r).set j 0) rest

/-- Replaying is decidable: the slots to take the operands from are searched. -/
instance Replay.decidable (target : Int) :
    (t : Slots) → (recs : List Step) → Decidable (Replay target t recs)
  | t, [] => inferInstanceAs (Decidable (∃ i, t.get i = target))
  | t, st :: rest =>
    have : ∀ t', Decidable (Replay target t' rest) := fun t' => Replay.decidable target t' rest
    inferInstanceAs (Decidable (∃ i j, i ≠ j ∧ t.get i ≠ 0 ∧ t.get j ≠ 0 ∧ st.a = t.get i ∧
      st.b = t.get j ∧ Replay target ((t.set i st.r).set j 0) rest))

/-- Number of non-empty (non-zero) slots. -/
def countNonEmpty (t : Slots) : Nat :=
  indices.countP fun i => t.get i != 0

/-- The target can be reached from the slots `t` by operations the solver applies: an
operator of the priority list on two distinct non-empty slots whose result does not compare
equal to `-1`, the result written into the left slot and the right slot emptied. -/
inductive Solvable (target : Int) : Slots → Prop
  | here {t : Slots} : (∃ i, t.get i = target) → Solvable target t
  | step {t : Slots} (i j : Fin NUMBERS_COUNT) (op : Char) :
      i ≠ j → t.get i ≠ 0 → t.get j ≠ 0 → op ∈ operationPriority →
      (performOperations (t.get i) (t.get j) op).isNegOne = false →
      Solvable target ((t.set i (performOperations (t.get i) (t.get j) op).toInt).set j 0) →
      Solvable target t

/-- A successful search from `s` ending in `s'`: the steps it pushed are the texts of
operations computed in `int` whose replay from the slots of `s` reaches the target, and
none of them had a result comparing equal to `-1`. -/
def Success (target : Int) (s s' : SolveState) : Prop :=
  Solvable target s.tempNumbers ∧
  ∃ recs : List Step, s'.steps = s.steps ++ recs.map Step.text ∧ (∀ st ∈ recs, st.ValidInt) ∧
    Replay target s.tempNumbers recs ∧ recs.length ≤ countNonEmpty s.tempNumbers - 1 ∧
    ∀ st ∈ recs, (performOperations st.a st.b st.op).isNegOne = false

/-- What a loop of the search started in `s` returns: failure with the state as it was and
the fact `C` about the candidates it went through, or success. -/
def LoopPost (target : Int) (s : SolveState) (C : Prop)
    (r : Option (Bool × SolveState)) : Prop :=
  (r = some (false, s) ∧ C) ∨ ∃ s', r = some (true, s') ∧ Success target s s'

/-- What a call of `findSolution` in state `s` returns: failure with the state as it was,
when the target cannot be reached, or success. -/
def Post (target : Int) (s : SolveState) (r : Option (Bool × SolveState)) : Prop :=
  LoopPost target s (¬ Solvable target s.tempNumbers) r

/-- Arbitrary changes to the slots and the target between two calls (the undo stack is
only touched by the three undo methods). -/
def changeState (g : Game) (numbers : Slots) (target : Int) : Game :=
  { g with numbers := numbers, target := target }

/-- A board given by its six slots. -/
def board (a b c d e f : Int) : Slots := ⟨[a, b, c, d, e, f], rfl⟩

instance : DecidableEq GameState := fun x y =>
  decidable_of_iff (x.numbers = y.numbers ∧ x.target = y.target) (by
    cases x; cases y; simp)

instance : DecidableEq Game := fun x y =>
  decidable_of_iff (x.numbers = y.numbers ∧ x.target = y.target ∧ x.undoStack = y.undoStack) (by
    cases x; cases y; simp)

instance (st : Step) : Decidable st.Valid :=
  inferInstanceAs (Decidable (st.op ∈ operationPriority ∧ st.r = applyOp st.op st.a st.b))

/-- The board `2 3 4`, target 20: solved by `2 + 3 = 5`, `5 * 4 = 20`. -/
def exSolved : Game := { numbers := board 2 3 4 0 0 0, target := 20, undoStack := [] }

/-- The board `3 4`, target 50: no operation sequence reaches 50. -/
def exUnsolvable : Game := { numbers := board 3 4 0 0 0 0, target := 50, undoStack := [] }

/-- The board reached from `100 5 10 1 1 2` (one large number), target 500, after the
turns `5 - 10`, `-5 * 100` and `-500 * 1`. -/
def exMinusOne : Game := { numbers := board (-500) 0 0 0 1 2, target := 500, undoStack := [] }

/-- The board reached from `100 100 10 7 6 1` (two large numbers), target 101, after the
turns `10 + 7`, `17 * 6` and `1 - 102`. -/
def exPriority : Game := { numbers := board 100 100 (-101) 0 0 0, target := 101, undoStack := [] }


/-! ## Game primitives (src/game.cpp, lines 57-150) -/

/-- The loop of `Game::addNumber`: put the new number at the first 0 (empty spot).  When
the loop ends without finding one, only the error message is printed. -/
def addNumberLoop (addNum : Int) : List (Fin NUMBERS_COUNT) → Slots → Slots
  | [], numbers => numbers
  | i :: is, numbers =>
    if numbers.get i = 0 then numbers.set i addNum else addNumberLoop addNum is numbers

/-- Add a number to the numbers available: `Game::addNumber`. -/
def addNumber (g : Game) (addNum : Int) : Game :=
  { g with numbers := addNumberLoop addNum indices g.numbers }

/-- The loop of `Game::removeNumber`: the first slot equal to `userNumber` is set to 0 and
true is returned; false when the loop ends. -/
def removeNumberLoop (userNumber : Int) : List (Fin NUMBERS_COUNT) → Slots → Bool × Slots
  | [], numbers => (false, numbers)
  | i :: is, numbers =>
    if numbers.get i = userNumber then (true, numbers.set i 0)
    else removeNumberLoop userNumber is numbers

/-- Remove the given number from the numbers: `Game::removeNumber`.
The first component is the returned `bool`. -/
def removeNumber (g : Game) (userNumber : Int) : Bool × Game :=
  ((removeNumberLoop userNumber indices g.numbers).1,
    { g with numbers := (removeNumberLoop userNumber indices g.numbers).2 })

/-- Calculate the answer of the operation: `Game::performOperation`.  The `int` division
`num1 / num2` truncates toward zero; with `num2 = 0` it is undefined, which is `none`. -/
def performOperation (num1 : Int) (operation : Char) (num2 : Int) : Option Int :=
  if operation = '+' then some (num1 + num2)
  else if operation = '-' then some (num1 - num2)
  else if operation = '/' then (if num2 = 0 then none else some (num1.tdiv num2))
  else if operation = '*' then some (num1 * num2)
  else some 0

/-- Has the user won: `Game::wonGame`. -/
def wonGame (g : Game) : Bool :=
  indices.any fun i => g.numbers.get i == g.target

/-- Has the user lost: `Game::lostGame`. -/
def lostGame (g : Game) : Bool :=
  if wonGame g then false
  else
    let countNumbersRemain := indices.countP fun i => g.numbers.get i != 0
    decide (countNumbersRemain ≤ 1)

/-- Is the game over: `Game::gameOver`. -/
def gameOver (g : Game) : Bool :=
  wonGame g || lostGame g

/-! ## The calculation turn of the game loop (src/main.cpp, lines 88-114) -/

/-- One turn of `main` for the parsed calculation `num1 operation num2`: the state is
pushed on the undo stack, the two numbers are removed, and only when both were found
`performOperation` is called and its result added.  What is printed is left out; `none`
means that `performOperation` was called with an undefined division. -/
def calculationTurn (g : Game) (num1 : Int) (operation : Char) (num2 : Int) : Option Game :=
  let g0 := pushUndoState g
  if (removeNumber g0 num1).1 = false then some (removeNumber g0 num1).2
  else
    let g1 := (removeNumber g0 num1).2
    if (removeNumber g1 num2).1 = false then some (addNumber (removeNumber g1 num2).2 num1)
    else
      let g2 := (removeNumber g1 num2).2
      match performOperation num1 operation num2 with
      | none => none
      | some result => some (addNumber g2 result)

/-! ## The search with the log of the operations it evaluates -/

/-- One evaluation `performOperations(a, b, op)` in `findSolution` (line 189). -/
structure OpCall where
  a : Int
  op : Char
  b : Int
  deriving DecidableEq

/-- The loop `opLoop`, returning also the evaluations of `performOperations` in the order
they are made. -/
def opLoopLog (findSolution : SolveState → Option ((Bool × SolveState) × List OpCall))
    (i j : Fin NUMBERS_COUNT) (a b : Int) :
    List Char → SolveState → Option ((Bool × SolveState) × List OpCall)
  | [], s => some ((false, s), [])
  | op :: ops, s =>
    let result := performOperations a b op
    if result.isNegOne || result.isNaN then
      match opLoopLog findSolution i j a b ops s with
      | none => none
      | some (r, log) => some (r, ⟨a, op, b⟩ :: log)
    else
      match findSolution
          { tempNumbers := (s.tempNumbers.set i result.toInt).set j 0
            steps := s.steps ++ [stepText a op b result.toInt] } with
      | none => none
      | some ((true, s'), log) => some ((true, s'), ⟨a, op, b⟩ :: log)
      | some ((false, s'), log) =>
        match opLoopLog findSolution i j a b ops
            { tempNumbers := (s'.tempNumbers.set i a).set j b
              steps := s'.steps.dropLast } with
        | none => none
        | some (r, log') => some (r, ⟨a, op, b⟩ :: (log ++ log'))

/-- The loop `pairLoop` with the log. -/
def pairLoopLog (findSolution : SolveState → Option ((Bool × SolveState) × List OpCall))
    (i : Fin NUMBERS_COUNT) :
    List (Fin NUMBERS_COUNT) → SolveState → Option ((Bool × SolveState) × List OpCall)
  | [], s => some ((false, s), [])
  | j :: js, s =>
    if i = j ∨ s.tempNumbers.get i = 0 ∨ s.tempNumbers.get j = 0 then
      pairLoopLog findSolution i js s
    else
      match opLoopLog findSolution i j (s.tempNumbers.get i) (s.tempNumbers.get j)
          operationPriority s with
      | none => none
      | some ((true, s'), log) => some ((true, s'), log)
      | some ((false, s'), log) =>
        match pairLoopLog findSolution i js s' with
        | none => none
        | some (r, log') => some (r, log ++ log')

/-- The loop `outerLoop` with the log. -/
def outerLoopLog (findSolution : SolveState → Option ((Bool × SolveState) × List OpCall)) :
    List (Fin NUMBERS_COUNT) → SolveState → Option ((Bool × SolveState) × List OpCall)
  | [], s => some ((false, s), [])
  | i :: is, s =>
    match pairLoopLog findSolution i indices s with
    | none => none
    | some ((true, s'), log) => some ((true, s'), log)
    | some ((false, s'), log) =>
      match outerLoopLog findSolution is s' with
      | none => none
      | some (r, log') => some (r, log ++ log')

/-- The closure `findSolution` with the log. -/
def findSolutionLog (target : Int) :
    Nat → SolveState → Option ((Bool × SolveState) × List OpCall)
  | 0, _ => none
  | fuel + 1, s =>
    if targetReached s.tempNumbers target then some ((true, s), [])
    else outerLoopLog (findSolutionLog target fuel) indices s

/-- The method `Game::solve` with the log of the evaluations of `performOperations`. -/
def solveLog (g : Game) (steps : List String) :
    Option ((Bool × List String × Game) × List OpCall) :=
  match findSolutionLog g.target NUMBERS_COUNT
      { tempNumbers := Mathlib.Vector.ofFn fun i => g.numbers.get i, steps := steps } with
  | none => none
  | some ((found, s), log) => some ((found, s.steps, g), log)

/-! ## More boards -/

/-- The initial board `100 5 10 1 1 2` (one large number) with target 500. -/
def exStart : Game := { numbers := board 100 5 10 1 1 2, target := 500, undoStack := [] }

/-- The board reached from `100 7 2 1 1 1` (one large number), target 300, after the turns
`1 * 1`, `1 * 1` and `2 * 1`. -/
def exFraction : Game := { numbers := board 100 7 2 0 0 0, target := 300, undoStack := [] }

/-- The board reached from `100 100 10 10 2 1` (two large numbers), target 101, after the
turns `10 * 10`, `100 + 2` and `1 - 102`. -/
def exTruncated : Game :=
  { numbers := board (-101) 100 100 0 0 0, target := 101, undoStack := [] }

/-- The board `3 4` with target -1. -/
def exThreeFour : Game := { numbers := board 3 4 0 0 0 0, target := -1, undoStack := [] }

/-- The board `3 3` with target 50. -/
def exZeroResult : Game := { numbers := board 3 3 0 0 0 0, target := 50, undoStack := [] }

/-- The board `5` with target 500. -/
def exOneLeft : Game := { numbers := board 5 0 0 0 0 0, target := 500, undoStack := [] }


/-! ## Slots -/

theorem mem_indices (i : Fin NUMBERS_COUNT) : i ∈ indices := by
  unfold indices
  exact List.mem_finRange i

/-- Writing back the two operands undoes one operation of the solver. -/
theorem set_set_restore (t : Slots) (i j : Fin NUMBERS_COUNT) (r : Int) :
    (((t.set i r).set j 0).set i (t.get i)).set j (t.get j) = t := by
  apply Mathlib.Vector.ext
  intro m
  simp only [Mathlib.Vector.get_set_eq_if]
  by_cases hjm : j = m
  · simp [hjm]
  · by_cases him : i = m
    · simp [hjm, him]
    · simp [hjm, him]

theorem ofFn_get_self (t : Slots) : (Mathlib.Vector.ofFn fun i => t.get i) = t := by
  apply Mathlib.Vector.ext
  intro m
  simp

theorem countP_lt_of_imp {α : Type} (p q : α → Bool) (l : List α) (x : α) (hx : x ∈ l)
    (hpq : ∀ y ∈ l, p y = true → q y = true) (hq : q x = true) (hp : p x = false) :
    l.countP p < l.countP q := by
  induction l with
  | nil => simp at hx
  | cons y ys ih =>
    have hmono : ys.countP p ≤ ys.countP q :=
      List.countP_mono_left fun z hz => hpq z (List.mem_cons_of_mem _ hz)
    rcases List.mem_cons.mp hx with rfl | hxs
    · simp [List.countP_cons, hq, hp]
      omega
    · have ih' := ih hxs fun z hz => hpq z (List.mem_cons_of_mem _ hz)
      by_cases hpy : p y = true
      · have hqy := hpq y (List.mem_cons_self _ _) hpy
        simp [List.countP_cons, hpy, hqy]
        omega
      · by_cases hqy : q y = true
        · simp [List.countP_cons, hpy, hqy]
          omega
        · simp [List.countP_cons, hpy, hqy]
          omega

/-- One operation of the solver leaves fewer non-empty slots. -/
theorem countNonEmpty_step (t : Slots) (i j : Fin NUMBERS_COUNT) (r : Int)
    (hi : t.get i ≠ 0) (hj : t.get j ≠ 0) :
    countNonEmpty ((t.set i r).set j 0) < countNonEmpty t := by
  unfold countNonEmpty
  apply countP_lt_of_imp _ _ _ j (mem_indices j)
  · intro y _ hy
    simp only [Mathlib.Vector.get_set_eq_if] at hy
    by_cases hjy : j = y
    · simp [hjy] at hy
    · by_cases hiy : i = y
      · subst hiy
        simpa using hi
      · simpa [hjy, hiy] using hy
  · simpa using hj
  · simp

/-- Two distinct non-empty slots: at least two non-empty slots. -/
theorem two_le_countNonEmpty (t : Slots) (i j : Fin NUMBERS_COUNT) (hij : i ≠ j)
    (hi : t.get i ≠ 0) (hj : t.get j ≠ 0) : 2 ≤ countNonEmpty t := by
  have h1 : countNonEmpty (t.set j 0) < countNonEmpty t := by
    unfold countNonEmpty
    apply countP_lt_of_imp _ _ _ j (mem_indices j)
    · intro y _ hy
      simp only [Mathlib.Vector.get_set_eq_if] at hy
      by_cases hjy : j = y
      · simp [hjy] at hy
      · simpa [hjy] using hy
    · simpa using hj
    · simp
  have h2 : 0 < countNonEmpty (t.set j 0) := by
    unfold countNonEmpty
    apply List.countP_pos_iff.mpr
    refine ⟨i, mem_indices i, ?_⟩
    simp only [Mathlib.Vector.get_set_eq_if]
    have hji : ¬ j = i := fun h => hij h.symm
    simpa [hji] using hi
  omega

theorem countNonEmpty_le (t : Slots) : countNonEmpty t ≤ NUMBERS_COUNT := by
  unfold countNonEmpty
  have h := List.countP_le_length (fun i => t.get i != 0) (l := indices)
  simpa [indices] using h

/-! ## The operator lambda -/

theorem mem_operationPriority (op : Char) :
    op ∈ operationPriority ↔ op = '+' ∨ op = '-' ∨ op = '*' ∨ op = '/' := by
  simp [operationPriority]

theorem wrapInt_of_inIntRange (n : Int) (h : InIntRange n) : wrapInt n = n := by
  unfold InIntRange at h
  unfold wrapInt
  omega

theorem wrapInt_wrapInt (n : Int) : wrapInt (wrapInt n) = wrapInt n := by
  unfold wrapInt
  omega

theorem inIntRange_wrapInt (n : Int) : InIntRange (wrapInt n) := by
  unfold InIntRange wrapInt
  omega

/-- On a non-zero right operand the value pushed in the step text and written into the slot
is the operator applied to the operands in `int`, division truncated toward zero. -/
theorem performOperations_toInt (a b : Int) (op : Char) (hop : op ∈ operationPriority)
    (hb : b ≠ 0) : (performOperations a b op).toInt = wrapInt (applyOp op a b) := by
  rcases (mem_operationPriority op).mp hop with rfl | rfl | rfl | rfl <;>
    simp [performOperations, applyOp, Dbl.toInt, Dbl.ofInt, hb, wrapInt_wrapInt]

theorem tdiv_eq_trunc_of_pos (a b : Int) (hb : 0 < b) :
    a.tdiv b = if 0 ≤ (a : ℚ) / (b : ℚ) then ⌊(a : ℚ) / (b : ℚ)⌋ else ⌈(a : ℚ) / (b : ℚ)⌉ := by
  have hbq : (0 : ℚ) < (b : ℚ) := by exact_mod_cast hb
  obtain ⟨n, rfl⟩ : ∃ n : ℕ, b = (n : Int) := ⟨b.toNat, (Int.toNat_of_nonneg hb.le).symm⟩
  have hfloor : ∀ c : Int, ⌊(c : ℚ) / ((n : Int) : ℚ)⌋ = c / (n : Int) := by
    intro c
    have := Rat.floor_intCast_div_natCast c n
    simpa using this
  rcases le_or_lt 0 a with ha | ha
  · have hq : (0 : ℚ) ≤ (a : ℚ) / ((n : Int) : ℚ) :=
      div_nonneg (by exact_mod_cast ha) hbq.le
    rw [if_pos hq, hfloor, Int.tdiv_eq_ediv ha hb.le]
  · have hq : ¬ (0 : ℚ) ≤ (a : ℚ) / ((n : Int) : ℚ) :=
      not_le.mpr (div_neg_of_neg_of_pos (by exact_mod_cast ha) hbq)
    have hneg : (0 : Int) ≤ -a := by omega
    have h1 : a.tdiv (n : Int) = -((-a) / (n : Int)) := by
      rw [← Int.tdiv_eq_ediv hneg hb.le, Int.neg_tdiv, neg_neg]
    have h2 : ⌈(a : ℚ) / ((n : Int) : ℚ)⌉ = -((-a) / (n : Int)) := by
      rw [← hfloor (-a)]
      have h3 : ((-a : Int) : ℚ) / ((n : Int) : ℚ) = -((a : ℚ) / ((n : Int) : ℚ)) := by
        push_cast
        ring
      rw [h3, Int.floor_neg, neg_neg]
    rw [if_neg hq, h1, h2]


/-- The conversion of a `Dbl` to `int` is the truncation toward zero of the rational number
it stands for, held in an `int`. -/
theorem Dbl.toInt_eq_trunc (d : Dbl) (h : d.den ≠ 0) :
    d.toInt = wrapInt (if 0 ≤ d.toRat then ⌊d.toRat⌋ else ⌈d.toRat⌉) := by
  unfold Dbl.toInt Dbl.toRat
  congr 1
  rcases lt_or_gt_of_ne h with hneg | hpos
  · have hpos : 0 < -d.den := by omega
    have h1 := tdiv_eq_trunc_of_pos (-d.num) (-d.den) hpos
    rw [Int.neg_tdiv_neg] at h1
    have h2 : ((-d.num : Int) : ℚ) / ((-d.den : Int) : ℚ) = (d.num : ℚ) / (d.den : ℚ) := by
      push_cast
      rw [neg_div_neg_eq]
    rw [h2] at h1
    exact h1
  · exact tdiv_eq_trunc_of_pos d.num d.den hpos

/-- The comparison with `-1` of a `Dbl` is the comparison of the rational number it stands
for. -/
theorem Dbl.isNegOne_iff (d : Dbl) (h : d.den ≠ 0) : d.isNegOne = true ↔ d.toRat = -1 := by
  have hq : (d.den : ℚ) ≠ 0 := by exact_mod_cast h
  unfold Dbl.isNegOne Dbl.toRat
  rw [div_eq_iff hq]
  simp only [bne_iff_ne, ne_eq, h, not_false_eq_true, Bool.and_eq_true, decide_eq_true_eq,
    beq_iff_eq, true_and]
  constructor
  · intro h1
    rw [h1]
    push_cast
    ring
  · intro h1
    have : (d.num : ℚ) = ((-d.den : Int) : ℚ) := by
      rw [h1]
      push_cast
      ring
    exact_mod_cast this

/-- The operator lambda never returns a denominator zero, hence never a NaN. -/
theorem performOperations_den_ne_zero (a b : Int) (op : Char) :
    (performOperations a b op).den ≠ 0 := by
  unfold performOperations
  split_ifs with h1 h2 h3 h4 <;> simp [Dbl.ofInt]
  exact h4.2

theorem performOperations_isNaN (a b : Int) (op : Char) :
    (performOperations a b op).isNaN = false := by
  have h := performOperations_den_ne_zero a b op
  simp [Dbl.isNaN, h]

/-! ## The search: what every call returns -/

theorem opLoop_post (target : Int) (f : SolveState → Option (Bool × SolveState))
    (s : SolveState) (i j : Fin NUMBERS_COUNT) (hij : i ≠ j)
    (hi : s.tempNumbers.get i ≠ 0) (hj : s.tempNumbers.get j ≠ 0)
    (hf : ∀ r steps1, Post target ⟨(s.tempNumbers.set i r).set j 0, steps1⟩
      (f ⟨(s.tempNumbers.set i r).set j 0, steps1⟩))
    (ops : List Char) (hops : ∀ op ∈ ops, op ∈ operationPriority) :
    LoopPost target s
      (∀ op ∈ ops,
        (performOperations (s.tempNumbers.get i) (s.tempNumbers.get j) op).isNegOne = false →
        ¬ Solvable target ((s.tempNumbers.set i
          (performOperations (s.tempNumbers.get i) (s.tempNumbers.get j) op).toInt).set j 0))
      (opLoop f i j (s.tempNumbers.get i) (s.tempNumbers.get j) ops s) := by
  induction ops with
  | nil => exact Or.inl ⟨rfl, by simp⟩
  | cons op ops ih =>
    have ih' := ih fun o ho => hops o (List.mem_cons_of_mem _ ho)
    have hop : op ∈ operationPriority := hops op (List.mem_cons_self _ _)
    rw [opLoop]
    split_ifs with hskip
    · rcases ih' with ⟨hfail, hC⟩ | hsucc
      · refine Or.inl ⟨hfail, ?_⟩
        intro o ho hneg
        rcases List.mem_cons.mp ho with rfl | ho'
        · simp [hneg, performOperations_isNaN] at hskip
        · exact hC o ho' hneg
      · exact Or.inr hsucc
    · have hneg : (performOperations (s.tempNumbers.get i) (s.tempNumbers.get j) op).isNegOne
          = false := by
        simpa [performOperations_isNaN] using hskip
      rcases hf (performOperations (s.tempNumbers.get i) (s.tempNumbers.get j) op).toInt
        (s.steps ++ [stepText (s.tempNumbers.get i) op (s.tempNumbers.get j)
          (performOperations (s.tempNumbers.get i) (s.tempNumbers.get j) op).toInt])
        with ⟨hfail, hunsolvable⟩ | ⟨s', hs', hsolv, recs, hsteps, hvalid, hreplay, hlen, hns⟩
      · rw [hfail]
        simp only [set_set_restore, List.dropLast_concat]
        rcases ih' with ⟨hfail', hC⟩ | hsucc
        · refine Or.inl ⟨hfail', ?_⟩
          intro o ho hneg'
          rcases List.mem_cons.mp ho with rfl | ho'
          · exact hunsolvable
          · exact hC o ho' hneg'
        · exact Or.inr hsucc
      · rw [hs']
        refine Or.inr ⟨s', rfl, Solvable.step i j op hij hi hj hop hneg hsolv, ?_⟩
        refine ⟨⟨s.tempNumbers.get i, op, s.tempNumbers.get j,
          (performOperations (s.tempNumbers.get i) (s.tempNumbers.get j) op).toInt⟩ :: recs,
          ?_, ?_, ?_, ?_, ?_⟩
        · rw [hsteps]
          simp [Step.text]
        · intro st hst
          rcases List.mem_cons.mp hst with rfl | hst'
          · exact ⟨hop, performOperations_toInt _ _ _ hop hj⟩
          · exact hvalid st hst'
        · exact ⟨i, j, hij, hi, hj, rfl, rfl, hreplay⟩
        · have h1 := countNonEmpty_step s.tempNumbers i j
            (performOperations (s.tempNumbers.get i) (s.tempNumbers.get j) op).toInt hi hj
          have h2 := two_le_countNonEmpty s.tempNumbers i j hij hi hj
          simp only [List.length_cons]
          simp only [] at hlen
          omega
        · intro st hst
          rcases List.mem_cons.mp hst with rfl | hst'
          · exact hneg
          · exact hns st hst'

theorem pairLoop_post (target : Int) (f : SolveState → Option (Bool × SolveState))
    (s : SolveState) (i : Fin NUMBERS_COUNT)
    (hf : ∀ i j r steps1, i ≠ j → s.tempNumbers.get i ≠ 0 → s.tempNumbers.get j ≠ 0 →
      Post target ⟨(s.tempNumbers.set i r).set j 0, steps1⟩
        (f ⟨(s.tempNumbers.set i r).set j 0, steps1⟩))
    (js : List (Fin NUMBERS_COUNT)) :
    LoopPost target s
      (∀ j ∈ js, i ≠ j → s.tempNumbers.get i ≠ 0 → s.tempNumbers.get j ≠ 0 →
        ∀ op ∈ operationPriority,
        (performOperations (s.tempNumbers.get i) (s.tempNumbers.get j) op).isNegOne = false →
        ¬ Solvable target ((s.tempNumbers.set i
          (performOperations (s.tempNumbers.get i) (s.tempNumbers.get j) op).toInt).set j 0))
      (pairLoop f i js s) := by
  induction js with
  | nil => exact Or.inl ⟨rfl, by simp⟩
  | cons j js ih =>
    rw [pairLoop]
    split_ifs with hskip
    · rcases ih with ⟨hfail, hC⟩ | hsucc
      · refine Or.inl ⟨hfail, ?_⟩
        intro k hk hik hi hk0
        rcases List.mem_cons.mp hk with rfl | hk'
        · exact absurd hskip (by simp [hik, hi, hk0])
        · exact hC k hk' hik hi hk0
      · exact Or.inr hsucc
    · have hij : i ≠ j := fun h => hskip (Or.inl h)
      have hi : s.tempNumbers.get i ≠ 0 := fun h => hskip (Or.inr (Or.inl h))
      have hj : s.tempNumbers.get j ≠ 0 := fun h => hskip (Or.inr (Or.inr h))
      rcases opLoop_post target f s i j hij hi hj (fun r steps1 => hf i j r steps1 hij hi hj)
        operationPriority (fun _ h => h) with ⟨hfail, hCop⟩ | ⟨s', hs', hsucc⟩
      · rw [hfail]
        rcases ih with ⟨hfail', hC⟩ | hsucc
        · refine Or.inl ⟨hfail', ?_⟩
          intro k hk hik hi' hk0
          rcases List.mem_cons.mp hk with rfl | hk'
          · exact hCop
          · exact hC k hk' hik hi' hk0
        · exact Or.inr hsucc
      · rw [hs']
        exact Or.inr ⟨s', rfl, hsucc⟩

theorem outerLoop_post (target : Int) (f : SolveState → Option (Bool × SolveState))
    (s : SolveState)
    (hf : ∀ i j r steps1, i ≠ j → s.tempNumbers.get i ≠ 0 → s.tempNumbers.get j ≠ 0 →
      Post target ⟨(s.tempNumbers.set i r).set j 0, steps1⟩
        (f ⟨(s.tempNumbers.set i r).set j 0, steps1⟩))
    (is : List (Fin NUMBERS_COUNT)) :
    LoopPost target s
      (∀ i ∈ is, ∀ j, i ≠ j → s.tempNumbers.get i ≠ 0 → s.tempNumbers.get j ≠ 0 →
        ∀ op ∈ operationPriority,
        (performOperations (s.tempNumbers.get i) (s.tempNumbers.get j) op).isNegOne = false →
        ¬ Solvable target ((s.tempNumbers.set i
          (performOperations (s.tempNumbers.get i) (s.tempNumbers.get j) op).toInt).set j 0))
      (outerLoop f is s) := by
  induction is with
  | nil => exact Or.inl ⟨rfl, by simp⟩
  | cons i is ih =>
    rw [outerLoop]
    rcases pairLoop_post target f s i hf indices with ⟨hfail, hCj⟩ | ⟨s', hs', hsucc⟩
    · rw [hfail]
      rcases ih with ⟨hfail', hC⟩ | hsucc
      · refine Or.inl ⟨hfail', ?_⟩
        intro k hk j
        rcases List.mem_cons.mp hk with rfl | hk'
        · exact hCj j (mem_indices j)
        · exact hC k hk' j
      · exact Or.inr hsucc
    · rw [hs']
      exact Or.inr ⟨s', rfl, hsucc⟩

theorem targetReached_iff (t : Slots) (target : Int) :
    targetReached t target = true ↔ ∃ i, t.get i = target := by
  unfold targetReached
  simp [List.any_eq_true, mem_indices]

/-- With fuel at least the number of non-empty slots (and at least one), a call of
`findSolution` returns: failure with the state it was given, when the target cannot be
reached, or success. -/
theorem findSolution_post (target : Int) (fuel : Nat) :
    ∀ s : SolveState, 1 ≤ fuel → countNonEmpty s.tempNumbers ≤ fuel →
      Post target s (findSolution target fuel s) := by
  induction fuel with
  | zero => intro s h; omega
  | succ n ih =>
    intro s _ hcount
    rw [findSolution]
    split_ifs with hreached
    · have hex := (targetReached_iff _ _).mp hreached
      exact Or.inr ⟨s, rfl, Solvable.here hex, [], by simp, by simp, hex, by simp, by simp⟩
    · have hloop := outerLoop_post target (findSolution target n) s (by
        intro i j r steps1 hij hi hj
        have h1 := countNonEmpty_step s.tempNumbers i j r hi hj
        have h2 := two_le_countNonEmpty s.tempNumbers i j hij hi hj
        apply ih
        · omega
        · simp only []
          omega) indices
      rcases hloop with ⟨hfail, hC⟩ | hsucc
      · refine Or.inl ⟨hfail, ?_⟩
        intro hsolv
        cases hsolv with
        | here hex => exact hreached ((targetReached_iff _ _).mpr hex)
        | step i j op hij hi hj hop hneg hrest =>
          exact hC i (mem_indices i) j hij hi hj op hop hneg hrest
      · exact Or.inr hsucc

/-- The search of `Game::solve`, started from a copy of the slots, returns: failure with
the step list as it was, or success with well-formed steps whose replay reaches the target. -/
theorem solve_post (g : Game) (steps : List String) :
    Post g.target ⟨g.numbers, steps⟩
      (findSolution g.target NUMBERS_COUNT
        { tempNumbers := Mathlib.Vector.ofFn fun i => g.numbers.get i, steps := steps }) := by
  rw [ofFn_get_self]
  exact findSolution_post g.target NUMBERS_COUNT ⟨g.numbers, steps⟩ (by decide)
    (countNonEmpty_le g.numbers)

/-- What `Game::solve` decides: it returns true exactly when the target can be reached by
operations whose result does not compare equal to `-1`. -/
theorem solve_true_iff_solvable (g : Game) (steps : List String) :
    (∃ steps' g', solve g steps = some (true, steps', g')) ↔ Solvable g.target g.numbers := by
  unfold solve
  rcases solve_post g steps with ⟨hfail, hun⟩ | ⟨s', hs', hsolv, _⟩
  · rw [hfail]
    constructor
    · rintro ⟨steps', g', h⟩
      simp at h
    · intro h
      exact absurd h hun
  · rw [hs']
    exact ⟨fun _ => hsolv, fun _ => ⟨s'.steps, g, rfl⟩⟩

/-! ## More fuel changes nothing -/

theorem opLoop_mono (f f' : SolveState → Option (Bool × SolveState))
    (hff : ∀ s r, f s = some r → f' s = some r) (i j : Fin NUMBERS_COUNT) (a b : Int)
    (ops : List Char) :
    ∀ s r, opLoop f i j a b ops s = some r → opLoop f' i j a b ops s = some r := by
  induction ops with
  | nil => intro s r h; simpa [opLoop] using h
  | cons op ops ih =>
    intro s r h
    rw [opLoop] at h
    rw [opLoop]
    split_ifs at h ⊢ with hskip
    · exact ih s r h
    · split at h
      · simp at h
      · next s' heq =>
        rw [hff _ _ heq]
        exact h
      · next s' heq =>
        rw [hff _ _ heq]
        exact ih _ r h

theorem pairLoop_mono (f f' : SolveState → Option (Bool × SolveState))
    (hff : ∀ s r, f s = some r → f' s = some r) (i : Fin NUMBERS_COUNT)
    (js : List (Fin NUMBERS_COUNT)) :
    ∀ s r, pairLoop f i js s = some r → pairLoop f' i js s = some r := by
  induction js with
  | nil => intro s r h; simpa [pairLoop] using h
  | cons j js ih =>
    intro s r h
    rw [pairLoop] at h
    rw [pairLoop]
    split_ifs at h ⊢ with hskip
    · exact ih s r h
    · split at h
      · simp at h
      · next s' heq =>
        rw [opLoop_mono f f' hff _ _ _ _ _ _ _ heq]
        exact h
      · next s' heq =>
        rw [opLoop_mono f f' hff _ _ _ _ _ _ _ heq]
        exact ih _ r h

theorem outerLoop_mono (f f' : SolveState → Option (Bool × SolveState))
    (hff : ∀ s r, f s = some r → f' s = some r) (is : List (Fin NUMBERS_COUNT)) :
    ∀ s r, outerLoop f is s = some r → outerLoop f' is s = some r := by
  induction is with
  | nil => intro s r h; simpa [outerLoop] using h
  | cons i is ih =>
    intro s r h
    rw [outerLoop] at h
    rw [outerLoop]
    split at h
    · simp at h
    · next s' heq =>
      rw [pairLoop_mono f f' hff _ _ _ _ heq]
      exact h
    · next s' heq =>
      rw [pairLoop_mono f f' hff _ _ _ _ heq]
      exact ih _ r h

/-- A call that returns with some fuel returns the same with one more level of fuel. -/
theorem findSolution_succ (target : Int) (fuel : Nat) :
    ∀ s r, findSolution target fuel s = some r → findSolution target (fuel + 1) s = some r := by
  induction fuel with
  | zero => intro s r h; simp [findSolution] at h
  | succ n ih =>
    intro s r h
    rw [findSolution] at h
    rw [findSolution]
    split_ifs at h ⊢ with hreached
    · exact h
    · exact outerLoop_mono _ _ ih indices s r h

theorem findSolution_add (target : Int) (fuel k : Nat) (s : SolveState)
    (r : Bool × SolveState) (h : findSolution target fuel s = some r) :
    findSolution target (fuel + k) s = some r := by
  induction k with
  | zero => exact h
  | succ k ih => exact findSolution_succ target (fuel + k) s r ih

/-- Past the `int` range the product wraps: on the slots `46341 46341 0 0 0 0` with target
-2147479015 the search multiplies to 2147488281 modulo 2^32 and records that value. -/
theorem solve_wraps_product :
    wrapInt (46341 * 46341) = -2147479015 ∧
    solve { numbers := board 46341 46341 0 0 0 0, target := -2147479015, undoStack := [] } [] =
      some (true, ["46341 * 46341 = -2147479015"],
        { numbers := board 46341 46341 0 0 0 0, target := -2147479015, undoStack := [] }) := by
  decide

/-! ## Solver claims -/

/-- C1 (solver soundness).  If `Game::solve`, called with an empty step list, returns true,
then the returned steps are the texts `"a op b = r"` of operations with `op` one of
`+ - * /` and `r` equal to `op` applied to `a` and `b` in `int` (division truncated toward
zero), which is the exact result whenever that lies within the `int` range (no overflow),
and replaying them in order from the original slots, each taking its operands from two
distinct non-empty slots, writing `r` into the left slot and emptying the right slot, ends
with some slot equal to the target. -/
theorem solve_sound (g g' : Game) (steps : List String)
    (h : solve g [] = some (true, steps, g')) :
    ∃ recs : List Step, steps = recs.map Step.text ∧
      (∀ st ∈ recs, st.op ∈ ['+', '-', '*', '/'] ∧
        st.r = wrapInt (applyOp st.op st.a st.b) ∧
        (InIntRange (applyOp st.op st.a st.b) → st.r = applyOp st.op st.a st.b)) ∧
      Replay g.target g.numbers recs := by
  unfold solve at h
  rcases solve_post g [] with ⟨hfail, _⟩ | ⟨s', hs', _, recs, hsteps, hvalid, hreplay, _, _⟩
  · rw [hfail] at h
    simp at h
  · rw [hs'] at h
    simp only [Option.some.injEq, Prod.mk.injEq, true_and] at h
    refine ⟨recs, ?_, ?_, hreplay⟩
    · rw [← h.1, hsteps]
      simp
    · intro st hst
      obtain ⟨hop, hr⟩ := hvalid st hst
      refine ⟨hop, hr, fun hrange => ?_⟩
      rw [hr, wrapInt_of_inIntRange _ hrange]

/-- Witness of C1 on the board `2 3 4` with target 20. -/
theorem solve_sound_witness :
    solve exSolved [] = some (true, ["2 + 3 = 5", "5 * 4 = 20"], exSolved) ∧
    ∃ recs : List Step, ["2 + 3 = 5", "5 * 4 = 20"] = recs.map Step.text ∧
      (∀ st ∈ recs, st.op ∈ ['+', '-', '*', '/'] ∧
        st.r = wrapInt (applyOp st.op st.a st.b) ∧
        (InIntRange (applyOp st.op st.a st.b) → st.r = applyOp st.op st.a st.b)) ∧
      Replay exSolved.target exSolved.numbers recs :=
  ⟨by decide, solve_sound exSolved exSolved _ (by decide)⟩

set_option maxRecDepth 100000 in
/-- C2 (solver completeness), evaluated at a board the game reaches: on the slots
`-500 0 0 0 1 2` with target 500 `Game::solve` returns false, although the well-formed
operations `1 - 2 = -1` and `-500 * -1 = 500` replay from these slots to the target. -/
theorem solve_misses_minus_one :
    solve exMinusOne [] = some (false, [], exMinusOne) ∧
    (∀ st ∈ [(⟨1, '-', 2, -1⟩ : Step), ⟨-500, '*', -1, 500⟩], st.Valid) ∧
    Replay exMinusOne.target exMinusOne.numbers [⟨1, '-', 2, -1⟩, ⟨-500, '*', -1, 500⟩] := by
  decide

/-- C5 (solver non-mutation).  Every call of `Game::solve` returns, whether with true or
with false, and afterwards the six slots, the target and the undo stack of the game are
what they were before the call. -/
theorem solve_leaves_game (g : Game) (steps : List String) :
    ∃ found steps' g', solve g steps = some (found, steps', g') ∧
      g'.numbers = g.numbers ∧ g'.target = g.target ∧ g'.undoStack = g.undoStack := by
  unfold solve
  rcases solve_post g steps with ⟨hfail, _⟩ | ⟨s', hs', _⟩
  · rw [hfail]
    exact ⟨false, steps, g, rfl, rfl, rfl, rfl⟩
  · rw [hs']
    exact ⟨true, s'.steps, g, rfl, rfl, rfl, rfl⟩

/-- C6 (exploration order), evaluated at a board the game reaches: on the slots
`100 100 -101 0 0 0` with target 101 no slot equals the target and `Game::solve` succeeds
with first step `100 - -101 = 201` on the pair of slots 0 and 2, although `+` on the same
pair, which comes first in the priority order, gives the slots `-1 100 0 0 0 0`, on which
`Game::solve` succeeds too. -/
theorem solve_skips_plus_step :
    targetReached exPriority.numbers exPriority.target = false ∧
    solve exPriority [] =
      some (true, ["100 - -101 = 201", "201 - 100 = 101"], exPriority) ∧
    (exPriority.numbers.set 0 (applyOp '+' 100 (-101))).set 2 0 = board (-1) 100 0 0 0 0 ∧
    solve { exPriority with numbers := board (-1) 100 0 0 0 0 } [] =
      some (true, ["100 - -1 = 101"], { exPriority with numbers := board (-1) 100 0 0 0 0 }) := by
  decide

/-- C7 (termination and depth bound).  Every call of `Game::solve` returns, and it does so
within `NUMBERS_COUNT = 6` nested levels of `findSolution`, that is with recursion depth at
most 5: the search never asks for a seventh level, so allowing more levels changes nothing.
When it succeeds it has appended at most 5 steps, at most the number of non-empty slots
minus one (subtraction on natural numbers). -/
theorem solve_terminates (g : Game) (steps : List String) :
    ∃ found steps', solve g steps = some (found, steps', g) ∧
      (∀ k, findSolution g.target (NUMBERS_COUNT + k)
          { tempNumbers := Mathlib.Vector.ofFn fun i => g.numbers.get i, steps := steps } =
        findSolution g.target NUMBERS_COUNT
          { tempNumbers := Mathlib.Vector.ofFn fun i => g.numbers.get i, steps := steps }) ∧
      (found = true → ∃ new : List String, steps' = steps ++ new ∧ new.length ≤ 5 ∧
        new.length ≤ countNonEmpty g.numbers - 1) := by
  unfold solve
  rcases solve_post g steps with ⟨hfail, _⟩ | ⟨s', hs', _, recs, hsteps, _, _, hlen, _⟩
  · refine ⟨false, steps, by rw [hfail], fun k => ?_, by simp⟩
    rw [findSolution_add _ _ k _ _ hfail, hfail]
  · refine ⟨true, s'.steps, by rw [hs'], fun k => ?_, fun _ => ⟨recs.map Step.text, hsteps, ?_, ?_⟩⟩
    · rw [findSolution_add _ _ k _ _ hs', hs']
    · have hle : countNonEmpty g.numbers ≤ 6 := countNonEmpty_le g.numbers
      simp only [List.length_map]
      simp only [] at hlen
      omega
    · simpa using hlen

/-- C8 (failure leaves no steps).  If `Game::solve` returns false, the step list is exactly
what it was at the call: every step pushed during the search has been popped again. -/
theorem solve_failure_steps (g g' : Game) (steps steps' : List String)
    (h : solve g steps = some (false, steps', g')) : steps' = steps := by
  unfold solve at h
  rcases solve_post g steps with ⟨hfail, _⟩ | ⟨s', hs', _⟩
  · rw [hfail] at h
    simp only [Option.some.injEq, Prod.mk.injEq, true_and] at h
    exact h.1.symm
  · rw [hs'] at h
    simp at h

/-- Witness of C8 on the board `3 4` with target 50, called with one step already in the
list. -/
theorem solve_failure_steps_witness :
    solve exUnsolvable ["0 + 0 = 0"] = some (false, ["0 + 0 = 0"], exUnsolvable) ∧
    ["0 + 0 = 0"] = ["0 + 0 = 0"] :=
  ⟨by decide, solve_failure_steps exUnsolvable exUnsolvable _ _ (by decide)⟩

/-! ## Undo stack claims -/

/-- C3 (undo LIFO law).  After `pushUndoState` and arbitrary changes to the slots and the
target, `popUndoState` returns true and gives back the game as it was before the push: the
six slots, the target and the stack.  Hence, starting from an empty stack, after pushes at
the states S1, S2, S3 three pops restore S3, then S2, then S1, and a fourth pop returns
false. -/
theorem undo_lifo (g : Game) (numbers : Slots) (target : Int)
    (n1 n2 n3 n4 : Slots) (t1 t2 t3 t4 : Int) :
    popUndoState (changeState (pushUndoState g) numbers target) = (true, g) ∧
    (let s1 : Game := { numbers := n1, target := t1, undoStack := [] }
     let s2 := changeState (pushUndoState s1) n2 t2
     let s3 := changeState (pushUndoState s2) n3 t3
     let s4 := changeState (pushUndoState s3) n4 t4
     popUndoState s4 = (true, s3) ∧ popUndoState s3 = (true, s2) ∧
       popUndoState s2 = (true, s1) ∧ popUndoState s1 = (false, s1)) := by
  have key : ∀ (g : Game) (numbers : Slots) (target : Int),
      popUndoState (changeState (pushUndoState g) numbers target) = (true, g) := by
    intro g numbers target
    cases g
    simp [popUndoState, changeState, pushUndoState, getCurrentState, restoreState,
      ofFn_get_self]
  exact ⟨key g numbers target, key _ n4 t4, key _ n3 t3, key _ n2 t2, rfl⟩

/-- C4 (snapshot round-trip).  `restoreState(getCurrentState())` leaves the six slots and
the target (and the undo stack) unchanged. -/
theorem restore_capture (g : Game) : restoreState g (getCurrentState g) = g := by
  cases g
  simp [restoreState, getCurrentState, ofFn_get_self]

/-- C9 (empty-history pop).  On an empty undo stack `popUndoState` returns false and leaves
the six slots, the target and the empty stack unchanged. -/
theorem pop_empty (g : Game) (h : g.undoStack = []) : popUndoState g = (false, g) := by
  unfold popUndoState
  rw [h]

/-- Witness of C9 on a game with an empty undo stack. -/
theorem pop_empty_witness :
    exSolved.undoStack = [] ∧ popUndoState exSolved = (false, exSolved) :=
  ⟨rfl, pop_empty exSolved rfl⟩

/-- C10 (undo after clear).  For an undo stack of any depth `clearUndoStack` leaves the six
slots and the target unchanged and empties the stack, so that a following `popUndoState`
returns false and changes nothing; in particular `pushUndoState(); clearUndoStack();
popUndoState()` fails. -/
theorem clear_then_pop (g : Game) :
    (clearUndoStack g).numbers = g.numbers ∧ (clearUndoStack g).target = g.target ∧
    (clearUndoStack g).undoStack = [] ∧
    popUndoState (clearUndoStack g) = (false, clearUndoStack g) ∧
    (popUndoState (clearUndoStack (pushUndoState g))).1 = false :=
  ⟨rfl, rfl, rfl, rfl, rfl⟩

/-! ## Game primitives: the two slot loops -/

theorem indices_pairwise : indices.Pairwise (· < ·) := by
  unfold indices
  exact List.pairwise_lt_finRange NUMBERS_COUNT

/-- The loop of `removeNumber` over increasing indices: it fails on slots without the
number and changes nothing, or it empties the first slot holding the number. -/
theorem removeNumberLoop_spec (v : Int) (t : Slots) (l : List (Fin NUMBERS_COUNT))
    (hl : l.Pairwise (· < ·)) :
    (removeNumberLoop v l t = (false, t) ∧ ∀ k ∈ l, t.get k ≠ v) ∨
    ∃ i ∈ l, t.get i = v ∧ (∀ k ∈ l, k < i → t.get k ≠ v) ∧
      removeNumberLoop v l t = (true, t.set i 0) := by
  induction l with
  | nil => exact Or.inl ⟨rfl, by simp⟩
  | cons x xs ih =>
    rw [List.pairwise_cons] at hl
    rw [removeNumberLoop]
    by_cases hx : t.get x = v
    · refine Or.inr ⟨x, List.mem_cons_self _ _, hx, ?_, by simp [hx]⟩
      intro k hk hkx
      rcases List.mem_cons.mp hk with rfl | hk'
      · exact absurd hkx (lt_irrefl _)
      · exact absurd hkx (not_lt.mpr (hl.1 k hk').le)
    · rw [if_neg hx]
      rcases ih hl.2 with ⟨hfail, hall⟩ | ⟨i, hi, hiv, hlow, hres⟩
      · refine Or.inl ⟨hfail, ?_⟩
        intro k hk
        rcases List.mem_cons.mp hk with rfl | hk'
        · exact hx
        · exact hall k hk'
      · refine Or.inr ⟨i, List.mem_cons_of_mem _ hi, hiv, ?_, hres⟩
        intro k hk hki
        rcases List.mem_cons.mp hk with rfl | hk'
        · exact hx
        · exact hlow k hk' hki

/-- The loop of `addNumber` over increasing indices: without an empty slot it changes
nothing, or it fills the first empty slot. -/
theorem addNumberLoop_spec (v : Int) (t : Slots) (l : List (Fin NUMBERS_COUNT))
    (hl : l.Pairwise (· < ·)) :
    (addNumberLoop v l t = t ∧ ∀ k ∈ l, t.get k ≠ 0) ∨
    ∃ i ∈ l, t.get i = 0 ∧ (∀ k ∈ l, k < i → t.get k ≠ 0) ∧
      addNumberLoop v l t = t.set i v := by
  induction l with
  | nil => exact Or.inl ⟨rfl, by simp⟩
  | cons x xs ih =>
    rw [List.pairwise_cons] at hl
    rw [addNumberLoop]
    by_cases hx : t.get x = 0
    · refine Or.inr ⟨x, List.mem_cons_self _ _, hx, ?_, by simp [hx]⟩
      intro k hk hkx
      rcases List.mem_cons.mp hk with rfl | hk'
      · exact absurd hkx (lt_irrefl _)
      · exact absurd hkx (not_lt.mpr (hl.1 k hk').le)
    · rw [if_neg hx]
      rcases ih hl.2 with ⟨hfail, hall⟩ | ⟨i, hi, hiv, hlow, hres⟩
      · refine Or.inl ⟨hfail, ?_⟩
        intro k hk
        rcases List.mem_cons.mp hk with rfl | hk'
        · exact hx
        · exact hall k hk'
      · refine Or.inr ⟨i, List.mem_cons_of_mem _ hi, hiv, ?_, hres⟩
        intro k hk hki
        rcases List.mem_cons.mp hk with rfl | hk'
        · exact hx
        · exact hlow k hk' hki

/-- What `removeNumber` does, in terms of the slots. -/
theorem removeNumber_cases (g : Game) (v : Int) :
    (removeNumber g v = (false, g) ∧ ∀ k, g.numbers.get k ≠ v) ∨
    ∃ i, g.numbers.get i = v ∧ (∀ k, k < i → g.numbers.get k ≠ v) ∧
      removeNumber g v = (true, { g with numbers := g.numbers.set i 0 }) := by
  unfold removeNumber
  rcases removeNumberLoop_spec v g.numbers indices indices_pairwise with
    ⟨hfail, hall⟩ | ⟨i, _, hiv, hlow, hres⟩
  · rw [hfail]
    exact Or.inl ⟨rfl, fun k => hall k (mem_indices k)⟩
  · rw [hres]
    exact Or.inr ⟨i, hiv, fun k hk => hlow k (mem_indices k) hk, rfl⟩

/-- What `addNumber` does, in terms of the slots. -/
theorem addNumber_cases (g : Game) (v : Int) :
    (addNumber g v = g ∧ ∀ k, g.numbers.get k ≠ 0) ∨
    ∃ i, g.numbers.get i = 0 ∧ (∀ k, k < i → g.numbers.get k ≠ 0) ∧
      addNumber g v = { g with numbers := g.numbers.set i v } := by
  unfold addNumber
  rcases addNumberLoop_spec v g.numbers indices indices_pairwise with
    ⟨hfail, hall⟩ | ⟨i, _, hiv, hlow, hres⟩
  · rw [hfail]
    exact Or.inl ⟨rfl, fun k => hall k (mem_indices k)⟩
  · rw [hres]
    exact Or.inr ⟨i, hiv, fun k hk => hlow k (mem_indices k) hk, rfl⟩

theorem wonGame_iff (g : Game) : wonGame g = true ↔ ∃ i, g.numbers.get i = g.target :=
  targetReached_iff g.numbers g.target

/-- A turn that divides a number on the board by 0 calls `performOperation` with the
undefined division: removing the first number leaves an empty slot, which holds 0, so
`removeNumber(0)` succeeds. -/
theorem calculationTurn_div_zero (g : Game) (num1 : Int) (h : ∃ i, g.numbers.get i = num1) :
    calculationTurn g num1 '/' 0 = none := by
  have hp : performOperation num1 '/' 0 = none := by simp [performOperation]
  unfold calculationTurn
  rcases removeNumber_cases (pushUndoState g) num1 with ⟨_, hall⟩ | ⟨i, _, _, hres⟩
  · obtain ⟨i, hi⟩ := h
    exact absurd hi (hall i)
  · simp only [hres]
    rcases removeNumber_cases
        ({ pushUndoState g with numbers := (pushUndoState g).numbers.set i 0 } : Game) 0 with
      ⟨_, hall⟩ | ⟨k, _, _, hres'⟩
    · exact absurd (Mathlib.Vector.get_set_same _ i 0) (hall i)
    · simp [hres', hp]

/-! ## Claims on the game primitives -/

/-- C11 (loss characterisation and win/loss exclusion).  `lostGame()` is true exactly when
`wonGame()` is false and at most one slot is non-zero; hence `wonGame()` and `lostGame()`
are never both true, a state with exactly one non-empty slot, different from the target,
is lost, and a state with two non-empty slots is not lost.  The target of a game is never
0, the value of an empty slot: the constructor draws it from 101 to 999 and afterwards it
is only restored from snapshots of the same game. -/
theorem lostGame_iff (g : Game) :
    (lostGame g = true ↔ wonGame g = false ∧ countNonEmpty g.numbers ≤ 1) ∧
    ¬ (wonGame g = true ∧ lostGame g = true) ∧
    (g.target ≠ 0 → countNonEmpty g.numbers = 1 →
      (∀ i, g.numbers.get i ≠ 0 → g.numbers.get i ≠ g.target) → lostGame g = true) ∧
    (countNonEmpty g.numbers = 2 → lostGame g = false) := by
  have hiff : lostGame g = true ↔ wonGame g = false ∧ countNonEmpty g.numbers ≤ 1 := by
    unfold lostGame countNonEmpty
    cases hw : wonGame g <;> simp
  refine ⟨hiff, ?_, ?_, ?_⟩
  · rintro ⟨hw, hl⟩
    rw [hiff.mp hl |>.1] at hw
    exact Bool.noConfusion hw
  · intro ht hc hne
    apply hiff.mpr
    refine ⟨?_, by omega⟩
    cases hw : wonGame g
    · rfl
    · obtain ⟨i, hi⟩ := (wonGame_iff g).mp hw
      by_cases h0 : g.numbers.get i = 0
      · exact absurd (h0 ▸ hi).symm ht
      · exact absurd hi (hne i h0)
  · intro hc
    cases hl : lostGame g
    · rfl
    · have := (hiff.mp hl).2
      omega

/-- Witness of C11 on the board `5` with target 500. -/
theorem lostGame_iff_witness :
    exOneLeft.target ≠ 0 ∧ countNonEmpty exOneLeft.numbers = 1 ∧
    (∀ i, exOneLeft.numbers.get i ≠ 0 → exOneLeft.numbers.get i ≠ exOneLeft.target) ∧
    lostGame exOneLeft = true :=
  ⟨by decide, by decide, by decide,
    (lostGame_iff exOneLeft).2.2.1 (by decide) (by decide) (by decide)⟩

/-- C12 (compute primitive).  Without overflow `performOperation(a, '+', b)` is `a + b`,
with `'-'` it is `a - b` (negative results are returned: `4 - 9 = -5`), with `'*'` it is
`a * b`, with `'/'` and `b` not 0 it is the quotient truncated toward zero (`7 / 2 = 3`,
`-7 / 2 = -3`), and any other operator character returns 0. -/
theorem performOperation_spec (a b : Int) :
    performOperation a '+' b = some (a + b) ∧
    performOperation a '-' b = some (a - b) ∧
    performOperation a '*' b = some (a * b) ∧
    (b ≠ 0 → performOperation a '/' b = some (a.tdiv b)) ∧
    (∀ op : Char, op ∉ ['+', '-', '*', '/'] → performOperation a op b = some 0) ∧
    performOperation 4 '-' 9 = some (-5) ∧
    performOperation 7 '/' 2 = some 3 ∧ performOperation (-7) '/' 2 = some (-3) := by
  refine ⟨by simp [performOperation], by simp [performOperation], by simp [performOperation],
    ?_, ?_, by decide, by decide, by decide⟩
  · intro hb
    simp [performOperation, hb]
  · intro op hop
    simp only [List.mem_cons, List.mem_singleton, List.not_mem_nil, or_false, not_or] at hop
    simp [performOperation, hop.1, hop.2.1, hop.2.2.1, hop.2.2.2]

/-- Witness of C12: `-7 / 2` and the operator character `x`. -/
theorem performOperation_spec_witness :
    performOperation (-7) '/' 2 = some ((-7 : Int).tdiv 2) ∧
    performOperation (-7) 'x' 2 = some 0 :=
  ⟨(performOperation_spec (-7) 2).2.2.2.1 (by decide),
    (performOperation_spec (-7) 2).2.2.2.2.1 'x' (by decide)⟩

/-- C13 (`removeNumber`).  `removeNumber(v)` returns true exactly when some slot equals
`v`; when it returns true, the lowest-indexed slot equal to `v` is set to 0 and every other
slot, the target and the undo stack are unchanged; when it returns false, the game is
unchanged. -/
theorem removeNumber_spec (g : Game) (v : Int) :
    ((removeNumber g v).1 = true ↔ ∃ i, g.numbers.get i = v) ∧
    ((removeNumber g v).1 = true →
      ∃ i, g.numbers.get i = v ∧ (∀ k, k < i → g.numbers.get k ≠ v) ∧
        (removeNumber g v).2 = { g with numbers := g.numbers.set i 0 }) ∧
    ((removeNumber g v).1 = false → (removeNumber g v).2 = g) := by
  rcases removeNumber_cases g v with ⟨hfail, hall⟩ | ⟨i, hiv, hlow, hres⟩
  · rw [hfail]
    refine ⟨⟨fun h => Bool.noConfusion h, fun ⟨i, hi⟩ => absurd hi (hall i)⟩,
      fun h => Bool.noConfusion h, fun _ => rfl⟩
  · rw [hres]
    exact ⟨⟨fun _ => ⟨i, hiv⟩, fun _ => rfl⟩, fun _ => ⟨i, hiv, hlow, rfl⟩,
      fun h => Bool.noConfusion h⟩

/-- Witness of C13: removing 1 from the board `100 5 10 1 1 2` empties slot 3. -/
theorem removeNumber_spec_witness :
    (removeNumber exStart 1).1 = true ∧
    ∃ i, exStart.numbers.get i = 1 ∧ (∀ k, k < i → exStart.numbers.get k ≠ 1) ∧
      (removeNumber exStart 1).2 = { exStart with numbers := exStart.numbers.set i 0 } :=
  ⟨by decide, (removeNumber_spec exStart 1).2.1 (by decide)⟩

/-- C14 (`addNumber`).  If some slot is 0, `addNumber(v)` writes `v` into the lowest-indexed
zero slot and leaves every other slot, the target and the undo stack unchanged; if all six
slots are non-zero, it leaves the game unchanged. -/
theorem addNumber_spec (g : Game) (v : Int) :
    ((∃ i, g.numbers.get i = 0) →
      ∃ i, g.numbers.get i = 0 ∧ (∀ k, k < i → g.numbers.get k ≠ 0) ∧
        addNumber g v = { g with numbers := g.numbers.set i v }) ∧
    ((∀ i, g.numbers.get i ≠ 0) → addNumber g v = g) := by
  rcases addNumber_cases g v with ⟨hfail, hall⟩ | ⟨i, hiv, hlow, hres⟩
  · exact ⟨fun ⟨i, hi⟩ => absurd hi (hall i), fun _ => hfail⟩
  · exact ⟨fun _ => ⟨i, hiv, hlow, hres⟩, fun h => absurd hiv (h i)⟩

/-- Witness of C14: on the full board `100 5 10 1 1 2` nothing is added. -/
theorem addNumber_spec_witness :
    (∀ i, exStart.numbers.get i ≠ 0) ∧ addNumber exStart 9 = exStart :=
  ⟨by decide, (addNumber_spec exStart 9).2 (by decide)⟩

/-- C17 (division by zero within `performOperation`), evaluated: for every `num1` the call
`performOperation(num1, '/', 0)` reaches the division `num1 / 0`, which is undefined; there
is no check of the divisor. -/
theorem performOperation_div_zero (num1 : Int) : performOperation num1 '/' 0 = none := by
  simp [performOperation]

/-- C19 (the caller and division by zero), evaluated on the initial board `100 5 10 1 1 2`
with the input `5 / 0`: both removals succeed, the second because the slot emptied by the
first holds 0, and the turn calls `performOperation(5, '/', 0)`. -/
theorem calculationTurn_divides_by_zero :
    (removeNumber (pushUndoState exStart) 5).1 = true ∧
    (removeNumber (removeNumber (pushUndoState exStart) 5).2 0).1 = true ∧
    performOperation 5 '/' 0 = none ∧
    calculationTurn exStart 5 '/' 0 = none := by
  decide

/-! ## The logged search -/

theorem opLoopLog_erase (f : SolveState → Option ((Bool × SolveState) × List OpCall))
    (f0 : SolveState → Option (Bool × SolveState)) (hf : ∀ s, (f s).map Prod.fst = f0 s)
    (i j : Fin NUMBERS_COUNT) (a b : Int) (ops : List Char) :
    ∀ s, (opLoopLog f i j a b ops s).map Prod.fst = opLoop f0 i j a b ops s := by
  induction ops with
  | nil => intro s; rfl
  | cons op ops ih =>
    intro s
    rw [opLoopLog, opLoop]
    split_ifs with hskip
    · rw [← ih s]
      cases opLoopLog f i j a b ops s <;> rfl
    · rw [← hf]
      cases f { tempNumbers := (s.tempNumbers.set i (performOperations a b op).toInt).set j 0
                steps := s.steps ++ [stepText a op b (performOperations a b op).toInt] } with
      | none => rfl
      | some r =>
        obtain ⟨⟨found, s'⟩, log⟩ := r
        cases found
        · simp only [Option.map_some']
          rw [← ih]
          cases opLoopLog f i j a b ops
            { tempNumbers := (s'.tempNumbers.set i a).set j b, steps := s'.steps.dropLast }
            <;> rfl
        · rfl

theorem pairLoopLog_erase (f : SolveState → Option ((Bool × SolveState) × List OpCall))
    (f0 : SolveState → Option (Bool × SolveState)) (hf : ∀ s, (f s).map Prod.fst = f0 s)
    (i : Fin NUMBERS_COUNT) (js : List (Fin NUMBERS_COUNT)) :
    ∀ s, (pairLoopLog f i js s).map Prod.fst = pairLoop f0 i js s := by
  induction js with
  | nil => intro s; rfl
  | cons j js ih =>
    intro s
    rw [pairLoopLog, pairLoop]
    split_ifs with hskip
    · exact ih s
    · rw [← opLoopLog_erase f f0 hf]
      cases opLoopLog f i j (s.tempNumbers.get i) (s.tempNumbers.get j) operationPriority s with
      | none => rfl
      | some r =>
        obtain ⟨⟨found, s'⟩, log⟩ := r
        cases found
        · simp only [Option.map_some']
          rw [← ih]
          cases pairLoopLog f i js s' <;> rfl
        · rfl

theorem outerLoopLog_erase (f : SolveState → Option ((Bool × SolveState) × List OpCall))
    (f0 : SolveState → Option (Bool × SolveState)) (hf : ∀ s, (f s).map Prod.fst = f0 s)
    (is : List (Fin NUMBERS_COUNT)) :
    ∀ s, (outerLoopLog f is s).map Prod.fst = outerLoop f0 is s := by
  induction is with
  | nil => intro s; rfl
  | cons i is ih =>
    intro s
    rw [outerLoopLog, outerLoop]
    rw [← pairLoopLog_erase f f0 hf]
    cases pairLoopLog f i indices s with
    | none => rfl
    | some r =>
      obtain ⟨⟨found, s'⟩, log⟩ := r
      cases found
      · simp only [Option.map_some']
        rw [← ih]
        cases outerLoopLog f is s' <;> rfl
      · rfl

/-- Without its log the logged search is `findSolution`. -/
theorem findSolutionLog_erase (target : Int) (fuel : Nat) :
    ∀ s, (findSolutionLog target fuel s).map Prod.fst = findSolution target fuel s := by
  induction fuel with
  | zero => intro s; rfl
  | succ n ih =>
    intro s
    rw [findSolutionLog, findSolution]
    split_ifs with hreached
    · rfl
    · exact outerLoopLog_erase _ _ ih indices s

theorem opLoopLog_nonzero (f : SolveState → Option ((Bool × SolveState) × List OpCall))
    (hf : ∀ s r log, f s = some (r, log) → ∀ c ∈ log, c.a ≠ 0 ∧ c.b ≠ 0)
    (i j : Fin NUMBERS_COUNT) (a b : Int) (ha : a ≠ 0) (hb : b ≠ 0) (ops : List Char) :
    ∀ s r log, opLoopLog f i j a b ops s = some (r, log) → ∀ c ∈ log, c.a ≠ 0 ∧ c.b ≠ 0 := by
  induction ops with
  | nil =>
    intro s r log h
    simp only [opLoopLog, Option.some.injEq, Prod.mk.injEq] at h
    rw [← h.2]
    simp
  | cons op ops ih =>
    intro s r log h
    rw [opLoopLog] at h
    split_ifs at h with hskip
    · split at h
      · simp at h
      · next r' log' heq =>
        simp only [Option.some.injEq, Prod.mk.injEq] at h
        rw [← h.2]
        intro c hc
        rcases List.mem_cons.mp hc with rfl | hc'
        · exact ⟨ha, hb⟩
        · exact ih _ _ _ heq c hc'
    · split at h
      · simp at h
      · next s' log' heq =>
        simp only [Option.some.injEq, Prod.mk.injEq] at h
        rw [← h.2]
        intro c hc
        rcases List.mem_cons.mp hc with rfl | hc'
        · exact ⟨ha, hb⟩
        · exact hf _ _ _ heq c hc'
      · next s' log' heq =>
        split at h
        · simp at h
        · next r'' log'' heq' =>
          simp only [Option.some.injEq, Prod.mk.injEq] at h
          rw [← h.2]
          intro c hc
          rcases List.mem_cons.mp hc with rfl | hc'
          · exact ⟨ha, hb⟩
          · rcases List.mem_append.mp hc' with h1 | h2
            · exact hf _ _ _ heq c h1
            · exact ih _ _ _ heq' c h2

theorem pairLoopLog_nonzero (f : SolveState → Option ((Bool × SolveState) × List OpCall))
    (hf : ∀ s r log, f s = some (r, log) → ∀ c ∈ log, c.a ≠ 0 ∧ c.b ≠ 0)
    (i : Fin NUMBERS_COUNT) (js : List (Fin NUMBERS_COUNT)) :
    ∀ s r log, pairLoopLog f i js s = some (r, log) → ∀ c ∈ log, c.a ≠ 0 ∧ c.b ≠ 0 := by
  induction js with
  | nil =>
    intro s r log h
    simp only [pairLoopLog, Option.some.injEq, Prod.mk.injEq] at h
    rw [← h.2]
    simp
  | cons j js ih =>
    intro s r log h
    rw [pairLoopLog] at h
    split_ifs at h with hskip
    · exact ih s r log h
    · have hi : s.tempNumbers.get i ≠ 0 := fun h0 => hskip (Or.inr (Or.inl h0))
      have hj : s.tempNumbers.get j ≠ 0 := fun h0 => hskip (Or.inr (Or.inr h0))
      have hop := opLoopLog_nonzero f hf i j _ _ hi hj operationPriority s
      split at h
      · simp at h
      · next s' log' heq =>
        simp only [Option.some.injEq, Prod.mk.injEq] at h
        rw [← h.2]
        exact hop _ _ heq
      · next s' log' heq =>
        split at h
        · simp at h
        · next r'' log'' heq' =>
          simp only [Option.some.injEq, Prod.mk.injEq] at h
          rw [← h.2]
          intro c hc
          rcases List.mem_append.mp hc with h1 | h2
          · exact hop _ _ heq c h1
          · exact ih _ _ _ heq' c h2

theorem outerLoopLog_nonzero (f : SolveState → Option ((Bool × SolveState) × List OpCall))
    (hf : ∀ s r log, f s = some (r, log) → ∀ c ∈ log, c.a ≠ 0 ∧ c.b ≠ 0)
    (is : List (Fin NUMBERS_COUNT)) :
    ∀ s r log, outerLoopLog f is s = some (r, log) → ∀ c ∈ log, c.a ≠ 0 ∧ c.b ≠ 0 := by
  induction is with
  | nil =>
    intro s r log h
    simp only [outerLoopLog, Option.some.injEq, Prod.mk.injEq] at h
    rw [← h.2]
    simp
  | cons i is ih =>
    intro s r log h
    rw [outerLoopLog] at h
    have hpair := pairLoopLog_nonzero f hf i indices s
    split at h
    · simp at h
    · next s' log' heq =>
      simp only [Option.some.injEq, Prod.mk.injEq] at h
      rw [← h.2]
      exact hpair _ _ heq
    · next s' log' heq =>
      split at h
      · simp at h
      · next r'' log'' heq' =>
        simp only [Option.some.injEq, Prod.mk.injEq] at h
        rw [← h.2]
        intro c hc
        rcases List.mem_append.mp hc with h1 | h2
        · exact hpair _ _ heq c h1
        · exact ih _ _ _ heq' c h2

/-- Every evaluation of `performOperations` in the search has two non-zero operands. -/
theorem findSolutionLog_nonzero (target : Int) (fuel : Nat) :
    ∀ s r log, findSolutionLog target fuel s = some (r, log) →
      ∀ c ∈ log, c.a ≠ 0 ∧ c.b ≠ 0 := by
  induction fuel with
  | zero => intro s r log h; simp [findSolutionLog] at h
  | succ n ih =>
    intro s r log h
    rw [findSolutionLog] at h
    split_ifs at h with hreached
    · simp only [Option.some.injEq, Prod.mk.injEq] at h
      rw [← h.2]
      simp
    · exact outerLoopLog_nonzero _ ih indices s r log h

theorem Replay_operands_ne_zero (target : Int) (recs : List Step) :
    ∀ t : Slots, Replay target t recs → ∀ st ∈ recs, st.a ≠ 0 ∧ st.b ≠ 0 := by
  induction recs with
  | nil => intro t _ st hst; simp at hst
  | cons x xs ih =>
    intro t h st hst
    obtain ⟨i, j, _, hi, hj, ha, hb, hrest⟩ := h
    rcases List.mem_cons.mp hst with rfl | hst'
    · exact ⟨ha ▸ hi, hb ▸ hj⟩
    · exact ih _ hrest st hst'

/-! ## Counting the non-empty slots exactly -/

theorem countP_succ_of_flip {α : Type} (p q : α → Bool) (l : List α) (x : α)
    (hnd : l.Nodup) (hx : x ∈ l) (hpq : ∀ y ∈ l, y ≠ x → p y = q y)
    (hq : q x = true) (hp : p x = false) : l.countP p + 1 = l.countP q := by
  induction l with
  | nil => simp at hx
  | cons y ys ih =>
    rw [List.nodup_cons] at hnd
    rcases List.mem_cons.mp hx with rfl | hxs
    · have hcongr : ys.countP p = ys.countP q := by
        apply List.countP_congr
        intro z hz
        have hzx : z ≠ x := fun h => hnd.1 (h ▸ hz)
        rw [hpq z (List.mem_cons_of_mem _ hz) hzx]
      simp [List.countP_cons, hq, hp, hcongr]
    · have hyx : y ≠ x := fun h => hnd.1 (h ▸ hxs)
      have ih' := ih hnd.2 hxs fun z hz hzx => hpq z (List.mem_cons_of_mem _ hz) hzx
      have hy := hpq y (List.mem_cons_self _ _) hyx
      simp only [List.countP_cons, hy]
      omega

theorem indices_nodup : indices.Nodup := by
  unfold indices
  exact List.nodup_finRange NUMBERS_COUNT

/-- Emptying a non-empty slot leaves exactly one non-empty slot less. -/
theorem countNonEmpty_set_zero (t : Slots) (j : Fin NUMBERS_COUNT) (hj : t.get j ≠ 0) :
    countNonEmpty (t.set j 0) + 1 = countNonEmpty t := by
  unfold countNonEmpty
  apply countP_succ_of_flip _ _ _ j indices_nodup (mem_indices j)
  · intro y _ hy
    have hjy : j ≠ y := fun h => hy h.symm
    simp [Mathlib.Vector.get_set_of_ne hjy]
  · simpa using hj
  · simp

/-- Overwriting a non-empty slot with a non-zero value keeps the number of non-empty
slots. -/
theorem countNonEmpty_set_ne_zero (t : Slots) (i : Fin NUMBERS_COUNT) (r : Int)
    (hi : t.get i ≠ 0) (hr : r ≠ 0) : countNonEmpty (t.set i r) = countNonEmpty t := by
  unfold countNonEmpty
  apply List.countP_congr
  intro y _
  by_cases hiy : i = y
  · subst hiy
    simp [hi, hr]
  · simp [Mathlib.Vector.get_set_of_ne hiy]

/-! ## Claims on the operations of the solver -/

set_option maxRecDepth 100000 in
/-- C15 (fractional quotients), evaluated at a board the game reaches: on the slots
`100 7 2 0 0 0` with target 300 the quotient `7 / 2` is exactly 7/2, but the slot receives
its truncation 3, and the following operation uses 3: `Game::solve` returns the steps
`7 / 2 = 3`, `100 * 3 = 300`, although 100 times 7/2 is 350. -/
theorem solve_truncates_quotient :
    (performOperations 7 2 '/').toRat = 7 / 2 ∧
    (performOperations 7 2 '/').toInt = 3 ∧
    solve exFraction [] = some (true, ["7 / 2 = 3", "100 * 3 = 300"], exFraction) :=
  ⟨by
    have h : performOperations 7 2 '/' = { num := 7, den := 2 } := rfl
    rw [h]
    norm_num [Dbl.toRat], by decide, by decide⟩

/-- C16 (zero slots are empty, no division by zero).  Every call of `Game::solve` returns,
and every evaluation of `performOperations` it makes, hence every step it records, has both
operands taken from non-zero slots; in particular no division is evaluated with a zero
right operand. -/
theorem solve_operands_ne_zero (g : Game) (steps : List String) :
    ∃ found steps' log, solveLog g steps = some ((found, steps', g), log) ∧
      solve g steps = some (found, steps', g) ∧
      (∀ c ∈ log, c.a ≠ 0 ∧ c.b ≠ 0) ∧
      (∀ c ∈ log, c.op = '/' → c.b ≠ 0) ∧
      (found = true → ∃ recs : List Step, steps' = steps ++ recs.map Step.text ∧
        ∀ st ∈ recs, st.a ≠ 0 ∧ st.b ≠ 0) := by
  have herase := findSolutionLog_erase g.target NUMBERS_COUNT
    { tempNumbers := Mathlib.Vector.ofFn fun i => g.numbers.get i, steps := steps }
  have hpost := solve_post g steps
  unfold solveLog solve
  cases hlog : findSolutionLog g.target NUMBERS_COUNT
      { tempNumbers := Mathlib.Vector.ofFn fun i => g.numbers.get i, steps := steps } with
  | none =>
    rw [hlog] at herase
    rcases hpost with ⟨hfail, _⟩ | ⟨s', hs', _⟩
    · rw [hfail] at herase
      simp at herase
    · rw [hs'] at herase
      simp at herase
  | some r =>
    obtain ⟨⟨found, s'⟩, log⟩ := r
    have hnz := findSolutionLog_nonzero g.target NUMBERS_COUNT _ _ _ hlog
    rw [hlog] at herase
    simp only [Option.map_some'] at herase
    rw [← herase]
    refine ⟨found, s'.steps, log, rfl, rfl, hnz, fun c hc _ => (hnz c hc).2, ?_⟩
    intro hfound
    rcases hpost with ⟨hfail, _⟩ | ⟨s'', hs'', _, recs, hsteps, _, hreplay, _⟩
    · rw [hfail] at herase
      simp only [Option.some.injEq, Prod.mk.injEq] at herase
      rw [hfound] at herase
      exact absurd herase.1 (by decide)
    · rw [hs''] at herase
      simp only [Option.some.injEq, Prod.mk.injEq] at herase
      rw [← herase.2] at hsteps
      exact ⟨recs, hsteps, Replay_operands_ne_zero g.target recs g.numbers hreplay⟩

/-- C18 (two slots consumed, one produced), the claim as stated fails on the board `3 3`:
the solver evaluates and applies `3 - 3`, whose result 0 leaves the left slot empty too, so
the two non-empty slots become none. -/
theorem zero_result_counterexample :
    (solveLog exZeroResult []).map (fun r => decide ((⟨3, '-', 3⟩ : OpCall) ∈ r.2)) = some true ∧
    (performOperations 3 3 '-').isNegOne = false ∧
    countNonEmpty exZeroResult.numbers = 2 ∧
    countNonEmpty ((exZeroResult.numbers.set 0 (performOperations 3 3 '-').toInt).set 1 0)
      = 0 := by
  decide

/-- C18 (two slots consumed, one produced), amended.  For every working set and every
operation on two distinct non-empty slots, the number of non-empty slots after the step is
exactly one less than before when the result written into the left slot is not 0, and
exactly two less when it is 0. -/
theorem step_count (t : Slots) (i j : Fin NUMBERS_COUNT) (op : Char) (hij : i ≠ j)
    (hi : t.get i ≠ 0) (hj : t.get j ≠ 0) :
    ((performOperations (t.get i) (t.get j) op).toInt ≠ 0 →
      countNonEmpty ((t.set i (performOperations (t.get i) (t.get j) op).toInt).set j 0) + 1
        = countNonEmpty t) ∧
    ((performOperations (t.get i) (t.get j) op).toInt = 0 →
      countNonEmpty ((t.set i (performOperations (t.get i) (t.get j) op).toInt).set j 0) + 2
        = countNonEmpty t) := by
  have hj' : ∀ r : Int, (t.set i r).get j ≠ 0 := by
    intro r
    rw [Mathlib.Vector.get_set_of_ne hij]
    exact hj
  constructor
  · intro hr
    rw [countNonEmpty_set_zero _ j (hj' _), countNonEmpty_set_ne_zero t i _ hi hr]
  · intro hr
    rw [hr]
    have h1 := countNonEmpty_set_zero _ j (hj' 0)
    have h2 := countNonEmpty_set_zero t i hi
    omega

/-- Witness of C18 on the board `2 3 4`: `2 + 3` leaves two non-empty slots, and on the
board `3 3` the operation `3 - 3` leaves none. -/
theorem step_count_witness :
    countNonEmpty ((exSolved.numbers.set 0 (performOperations 2 3 '+').toInt).set 1 0) + 1
      = countNonEmpty exSolved.numbers ∧
    countNonEmpty ((exZeroResult.numbers.set 0 (performOperations 3 3 '-').toInt).set 1 0) + 2
      = countNonEmpty exZeroResult.numbers :=
  ⟨(step_count exSolved.numbers 0 1 '+' (by decide) (by decide) (by decide)).1 (by decide),
    (step_count exZeroResult.numbers 0 1 '-' (by decide) (by decide) (by decide)).2
      (by decide)⟩

/-- A recorded result `-1` of an operation that was not skipped comes from a division
whose exact quotient is not `-1`. -/
theorem recorded_minus_one (st : Step) (hv : st.ValidInt) (hb : st.b ≠ 0)
    (hns : (performOperations st.a st.b st.op).isNegOne = false) (hr : st.r = -1) :
    st.op = '/' ∧ st.a ≠ -st.b := by
  obtain ⟨hop, hval⟩ := hv
  rw [hr] at hval
  rcases (mem_operationPriority st.op).mp hop with h | h | h | h
  · rw [h] at hns hval
    simp [performOperations, Dbl.isNegOne, Dbl.ofInt, applyOp] at hns hval
    exact absurd hval.symm hns
  · rw [h] at hns hval
    simp [performOperations, Dbl.isNegOne, Dbl.ofInt, applyOp] at hns hval
    exact absurd hval.symm hns
  · rw [h] at hns hval
    simp [performOperations, Dbl.isNegOne, Dbl.ofInt, applyOp] at hns hval
    exact absurd hval.symm hns
  · rw [h] at hns
    refine ⟨h, ?_⟩
    simpa [performOperations, Dbl.isNegOne, hb] using hns

set_option maxRecDepth 100000 in
/-- C20 (results equal to -1), the claim as stated fails at a board the game reaches: on
the slots `-101 100 100 0 0 0` with target 101 `Game::solve` returns the step
`-101 / 100 = -1`, whose recorded result is -1: the quotient -1.01 does not compare equal
to -1 and is truncated only afterwards. -/
theorem minus_one_step_counterexample :
    solve exTruncated [] =
      some (true, ["-101 / 100 = -1", "100 - -1 = 101"], exTruncated) ∧
    Step.text ⟨-101, '/', 100, -1⟩ = "-101 / 100 = -1" ∧
    (performOperations (-101) 100 '/').isNegOne = false ∧
    (performOperations (-101) 100 '/').toInt = -1 := by
  decide

/-- C20 (results equal to -1), amended.  A candidate operation whose result, computed in
`int` for `+ - *` and as the quotient for `/`, is -1 (such as `3 - 4`) is skipped without
being applied; every returned step records the truncation of such a result other than -1,
which is the exact result of the operation whenever that lies within the `int` range, so
that a returned step with result -1 is a division whose quotient is not exactly -1; and
`Game::solve` on the slots `3 4 0 0 0 0` with target -1 returns false. -/
theorem minus_one_skipped :
    (∀ (f : SolveState → Option (Bool × SolveState)) (i j : Fin NUMBERS_COUNT) (a b : Int)
        (op : Char) (ops : List Char) (s : SolveState),
      (performOperations a b op).toRat = -1 →
        opLoop f i j a b (op :: ops) s = opLoop f i j a b ops s) ∧
    (∀ (g g' : Game) (steps : List String), solve g [] = some (true, steps, g') →
      ∃ recs : List Step, steps = recs.map Step.text ∧
        ∀ st ∈ recs, (performOperations st.a st.b st.op).toRat ≠ -1 ∧
          st.r = (performOperations st.a st.b st.op).toInt ∧
          (InIntRange (applyOp st.op st.a st.b) → st.r = applyOp st.op st.a st.b) ∧
          (st.r = -1 → st.op = '/' ∧ st.a ≠ -st.b)) ∧
    (performOperations 3 4 '-').toRat = -1 ∧
    solve exThreeFour [] = some (false, [], exThreeFour) := by
  refine ⟨?_, ?_, ?_, by decide⟩
  · intro f i j a b op ops s h
    have hneg := (Dbl.isNegOne_iff _ (performOperations_den_ne_zero a b op)).mpr h
    rw [opLoop]
    simp [hneg]
  · intro g g' steps h
    unfold solve at h
    rcases solve_post g [] with ⟨hfail, _⟩ | ⟨s', hs', _, recs, hsteps, hvalid, hreplay, _, hns⟩
    · rw [hfail] at h
      simp at h
    · rw [hs'] at h
      simp only [Option.some.injEq, Prod.mk.injEq, true_and] at h
      refine ⟨recs, ?_, ?_⟩
      · rw [← h.1, hsteps]
        simp
      · intro st hst
        have hb := (Replay_operands_ne_zero g.target recs g.numbers hreplay st hst).2
        refine ⟨?_, ?_, ?_, recorded_minus_one st (hvalid st hst) hb (hns st hst)⟩
        · intro hrat
          have hneg := (Dbl.isNegOne_iff _
            (performOperations_den_ne_zero st.a st.b st.op)).mpr hrat
          rw [hns st hst] at hneg
          exact Bool.noConfusion hneg
        · rw [performOperations_toInt _ _ _ (hvalid st hst).1 hb]
          exact (hvalid st hst).2
        · intro hrange
          rw [(hvalid st hst).2, wrapInt_of_inIntRange _ hrange]
  · have h : performOperations 3 4 '-' = { num := -1, den := 1 } := rfl
    rw [h]
    norm_num [Dbl.toRat]

/-- Witness of C20 on the slots `-101 100 100 0 0 0` with target 101. -/
theorem minus_one_skipped_witness :
    ∃ recs : List Step, ["-101 / 100 = -1", "100 - -1 = 101"] = recs.map Step.text ∧
      ∀ st ∈ recs, (performOperations st.a st.b st.op).toRat ≠ -1 ∧
        st.r = (performOperations st.a st.b st.op).toInt ∧
        (InIntRange (applyOp st.op st.a st.b) → st.r = applyOp st.op st.a st.b) ∧
        (st.r = -1 → st.op = '/' ∧ st.a ≠ -st.b) :=
  minus_one_skipped.2.1 exTruncated exTruncated _ (by decide)

end Countdown
